import Mathlib

/-!
Shallow embedding of the KWC_2 painting/frameglass scripts
(`src/main.py`, `src/10_computable_moments.py`) and proofs about them.

Paintings are pairs of a kind (`L` landscape / `P` portrait) and a finite
tag set; tags are drawn from an arbitrary type with decidable equality
(the scripts use Python string sets).  Python lists of `(indices, tags)`
tuples become Lean lists of `List Nat × Finset α`; loops become
structural recursions over the same index ranges the Python code
iterates, and fallible operations (`pop` from an empty list) return
`Option`.
-/

set_option linter.unusedSectionVars false

namespace KWC

/-- Painting kind, the `"L"` / `"P"` type markers of the input format. -/
inductive PKind where
  | L
  | P
deriving DecidableEq, Repr

variable {α : Type} [DecidableEq α]

/-- A painting: its kind plus its tag set (`(painting_type, tags)` tuples). -/
abbrev Painting (α : Type) := PKind × Finset α

/-- A frameglass: list of member painting indices plus cached combined tags. -/
abbrev Frameglass (α : Type) := List Nat × Finset α

/-- `main.py create_frameglasses`, landscape branch: one singleton frameglass
`([i], tags)` per `"L"` painting, in input order. -/
def landscapeFrames (paintings : List (Painting α)) : List (Frameglass α) :=
  (paintings.enum.filter (fun ip => ip.2.1 == PKind.L)).map (fun ip => ([ip.1], ip.2.2))

/-- `main.py create_frameglasses`, portrait branch: `(i, tags)` per `"P"`
painting, in input order. -/
def portraitsOf (paintings : List (Painting α)) : List (Nat × Finset α) :=
  (paintings.enum.filter (fun ip => ip.2.1 == PKind.P)).map (fun ip => (ip.1, ip.2.2))

/-- `main.py create_frameglasses`, inner `for j in range(i+1, len(portraits))`
loop: scan positions `js`, skipping used ones, keeping the `j` whose combined
tag set with `ti` is strictly larger than the best so far (`best_tags` starts
empty, `best_pair` starts `None`). -/
def innerScan (portraits : List (Nat × Finset α)) (ti : Finset α) :
    List Nat → Finset Nat → Option Nat → Finset α → Option Nat × Finset α
  | [], _, best, bestTags => (best, bestTags)
  | j :: js, used, best, bestTags =>
    if j ∈ used then innerScan portraits ti js used best bestTags
    else
      let combined := ti ∪ (portraits.getD j (0, ∅)).2
      if bestTags.card < combined.card then
        innerScan portraits ti js used (some j) combined
      else
        innerScan portraits ti js used best bestTags

/-- `main.py create_frameglasses`, outer `for i in range(len(portraits))` loop:
pair position `i` with the best later position when the inner scan found one
(adding both to `used`), otherwise emit portrait `i` as a singleton. -/
def pairFold (portraits : List (Nat × Finset α)) :
    List Nat → Finset Nat → List (Frameglass α)
  | [], _ => []
  | i :: is, used =>
    if i ∈ used then pairFold portraits is used
    else
      let p := portraits.getD i (0, ∅)
      match innerScan portraits p.2
          (List.range' (i + 1) (portraits.length - (i + 1))) used none ∅ with
      | (some j, bestTags) =>
          ([p.1, (portraits.getD j (0, ∅)).1], bestTags) ::
            pairFold portraits is (insert j (insert i used))
      | (none, _) => ([p.1], p.2) :: pairFold portraits is used

/-- `main.py create_frameglasses`: landscapes become singletons; if there are
no portraits only the landscapes are returned, otherwise the paired portraits
are appended. -/
def create_frameglasses (paintings : List (Painting α)) : List (Frameglass α) :=
  let landscapes := landscapeFrames paintings
  let portraits := portraitsOf paintings
  if portraits = [] then landscapes
  else landscapes ++ pairFold portraits (List.range portraits.length) ∅

/-- `calculate_local_satisfaction` (identical in `main.py` and
`10_computable_moments.py`): `min(common, only_in_tags1, only_in_tags2)`. -/
def calculate_local_satisfaction (tags1 tags2 : Finset α) : Nat :=
  let common := (tags1 ∩ tags2).card
  let only1 := (tags1 \ tags2).card
  let only2 := (tags2 \ tags1).card
  min common (min only1 only2)

/-- Pairing key of `10_computable_moments.py create_frameglasses`:
`len(p1[1] | portraits[j][1])`, the size of the tag-set union. -/
def unionScore (a b : Finset α) : Nat := (a ∪ b).card

/-- Pairing key of `110_oily_portraits.py fast_pair_portraits` and
`11_randomizing_paintings.py pair_portraits`: `union_size - intersection_size`. -/
def diversityScore (a b : Finset α) : Nat := (a ∪ b).card - (a ∩ b).card

/-- `main.py optimize_chunk`, candidate scan: `best_score = -1`,
`best_next = None`, then for each remaining frameglass (by position `i`)
update on a strictly greater local score. -/
def bestScan (current : Finset α) :
    List (Frameglass α) → Nat → Int → Option Nat → Option Nat
  | [], _, _, best => best
  | fg :: rest, i, bestScore, best =>
    if bestScore < (calculate_local_satisfaction current fg.2 : Int) then
      bestScan current rest (i + 1) (calculate_local_satisfaction current fg.2 : Int) (some i)
    else bestScan current rest (i + 1) bestScore best

/-- `main.py optimize_chunk`, `while remaining:` loop.  Each iteration removes
exactly one element, so the loop runs `remaining.length` times; that count is
the structural fuel.  A failed selection (never reached, see
`bestScan` lemmas) would end the loop. -/
def greedyGo : Nat → Frameglass α → List (Frameglass α) → List (Frameglass α)
  | 0, _, _ => []
  | _ + 1, _, [] => []
  | fuel + 1, last, x :: rest =>
    match bestScan last.2 (x :: rest) 0 (-1) none with
    | none => []
    | some i =>
      let b := (x :: rest).getD i ([], ∅)
      b :: greedyGo fuel b ((x :: rest).eraseIdx i)

/-- `main.py optimize_chunk`: `remaining.pop(0)` raises `IndexError` on an
empty chunk (modelled as `none`); otherwise the first frameglass seeds the
sequence and the greedy loop appends the rest. -/
def optimize_chunk (chunk : List (Frameglass α)) : Option (List (Frameglass α)) :=
  match chunk with
  | [] => none
  | first :: rest => some (first :: greedyGo rest.length first rest)

/-- Python `max(items, key=k)` over `best :: l`: scan keeping the first
element of maximal key (a later element replaces only on a strictly
greater key). -/
def pyMax (key : Frameglass α → Nat) : List (Frameglass α) → Frameglass α → Frameglass α
  | [], best => best
  | x :: rest, best =>
    if key best < key x then pyMax key rest x else pyMax key rest best

/-- `10_computable_moments.py optimize_sequence`, `while frameglasses:` loop:
take the remaining frameglass of maximal local score against the tail
(`max(..., key=...)`, first maximal wins), append it, `remove` it (first
structurally equal occurrence).  Fuel is the remaining length. -/
def seqGo : Nat → Frameglass α → List (Frameglass α) → List (Frameglass α)
  | 0, _, _ => []
  | _ + 1, _, [] => []
  | fuel + 1, last, x :: rest =>
    let b := pyMax (fun fg => calculate_local_satisfaction last.2 fg.2) rest x
    b :: seqGo fuel b ((x :: rest).erase b)

/-- `10_computable_moments.py optimize_sequence`: `frameglasses.pop(0)` raises
`IndexError` on an empty list (modelled as `none`); otherwise seed with the
first frameglass and run the greedy loop. -/
def optimize_sequence (fgs : List (Frameglass α)) : Option (List (Frameglass α)) :=
  match fgs with
  | [] => none
  | first :: rest => some (first :: seqGo rest.length first rest)

/-- `main.py calculate_global_score`: `for i in range(len(sequence) - 1)`
accumulating the local satisfaction of adjacent frameglasses. -/
def calculate_global_score (sequence : List (Frameglass α)) : Nat :=
  (List.range (sequence.length - 1)).foldl
    (fun total i =>
      total + calculate_local_satisfaction
        (sequence.getD i ([], ∅)).2 (sequence.getD (i + 1) ([], ∅)).2) 0

/-- Concatenation of the member-index lists of a list of frameglasses. -/
def frameIndices : List (Frameglass α) → List Nat
  | [] => []
  | fg :: rest => fg.1 ++ frameIndices rest

/-! ### Scorer lemmas -/

/-- C6: the local satisfaction score `min(|A∩B|, |A\B|, |B\A|)` is symmetric
in its two tag-set arguments. -/
theorem calculate_local_satisfaction_comm (tags1 tags2 : Finset α) :
    calculate_local_satisfaction tags1 tags2 = calculate_local_satisfaction tags2 tags1 := by
  simp only [calculate_local_satisfaction]
  rw [Finset.inter_comm]
  omega

/-- C10: when one tag set is contained in the other (including empty sets and
equal sets), one of the two set differences is empty, so the minimum — taken
with 0 — is 0. -/
theorem calculate_local_satisfaction_eq_zero_of_subset (A B : Finset α)
    (h : A ⊆ B ∨ B ⊆ A) : calculate_local_satisfaction A B = 0 := by
  simp only [calculate_local_satisfaction]
  rcases h with h | h
  · have h0 : (A \ B).card = 0 := by
      rw [Finset.sdiff_eq_empty_iff_subset.mpr h]; rfl
    omega
  · have h0 : (B \ A).card = 0 := by
      rw [Finset.sdiff_eq_empty_iff_subset.mpr h]; rfl
    omega

/-- Witness for `calculate_local_satisfaction_eq_zero_of_subset` at
`A = {0}`, `B = {0, 1}`. -/
theorem calculate_local_satisfaction_eq_zero_of_subset_witness :
    calculate_local_satisfaction ({0} : Finset Nat) {0, 1} = 0 :=
  calculate_local_satisfaction_eq_zero_of_subset {0} {0, 1} (Or.inl (by decide))

/-- C4 counterexample: with `A = {0}`, `B1 = {0}`, `B2 = ∅`, the union-size
criterion prefers `B1` at least as much as `B2`, but the
union-minus-intersection criterion does not: the claimed equivalence of the
two pairing criteria is false. -/
theorem union_vs_diversity_not_equiv :
    unionScore ({0} : Finset Nat) ∅ ≤ unionScore ({0} : Finset Nat) {0} ∧
      ¬ diversityScore ({0} : Finset Nat) ∅ ≤ diversityScore ({0} : Finset Nat) {0} := by
  decide

/-- C4 amended: for candidate tag sets of equal cardinality, maximizing the
union size `|A ∪ B|` and maximizing the diversity score `|A ∪ B| - |A ∩ B|`
are equivalent selection criteria. -/
theorem union_vs_diversity_equiv_of_card_eq (A B1 B2 : Finset α)
    (h : B1.card = B2.card) :
    (unionScore A B2 ≤ unionScore A B1 ↔ diversityScore A B2 ≤ diversityScore A B1) := by
  have h1 := Finset.card_union_add_card_inter A B1
  have h2 := Finset.card_union_add_card_inter A B2
  have h3 : (A ∩ B1).card ≤ (A ∪ B1).card :=
    Finset.card_le_card (Finset.inter_subset_union)
  have h4 : (A ∩ B2).card ≤ (A ∪ B2).card :=
    Finset.card_le_card (Finset.inter_subset_union)
  simp only [unionScore, diversityScore]
  omega

/-- Witness for `union_vs_diversity_equiv_of_card_eq` at `A = {5}`,
`B1 = {0, 1}`, `B2 = {2, 3}`. -/
theorem union_vs_diversity_equiv_of_card_eq_witness :
    unionScore ({5} : Finset Nat) {2, 3} ≤ unionScore ({5} : Finset Nat) {0, 1} ↔
      diversityScore ({5} : Finset Nat) {2, 3} ≤ diversityScore ({5} : Finset Nat) {0, 1} :=
  union_vs_diversity_equiv_of_card_eq {5} {0, 1} {2, 3} (by decide)

/-! ### Global score -/

/-- Folding an accumulating sum over a list equals the starting value plus the
sum of the mapped list. -/
theorem foldl_add_map_sum (f : Nat → Nat) (l : List Nat) :
    ∀ acc : Nat, l.foldl (fun t i => t + f i) acc = acc + (l.map f).sum := by
  induction l with
  | nil => intro acc; simp
  | cons x xs ih => intro acc; simp [List.foldl_cons, ih, Nat.add_assoc]

/-- The indexed adjacent-pair traversal of `calculate_global_score` matches
the zip of the sequence with its own tail. -/
theorem range_map_adjacent (s : List (Frameglass α)) :
    (List.range (s.length - 1)).map
      (fun i => calculate_local_satisfaction (s.getD i ([], ∅)).2 (s.getD (i + 1) ([], ∅)).2)
    = List.zipWith (fun a b => calculate_local_satisfaction a.2 b.2) s s.tail := by
  induction s with
  | nil => rfl
  | cons a s ih =>
    cases s with
    | nil => rfl
    | cons b t =>
      simp only [List.length_cons, Nat.add_sub_cancel, List.range_succ_eq_map,
        List.map_cons, List.map_map, List.getD_cons_zero, List.getD_cons_succ,
        List.zipWith, List.tail_cons]
      congr 1

/-- C8: the global score is the sum of the local satisfaction of each adjacent
pair of the sequence, and a sequence of length 0 or 1 scores exactly 0. -/
theorem calculate_global_score_spec (s : List (Frameglass α)) :
    calculate_global_score s
      = (List.zipWith (fun a b => calculate_local_satisfaction a.2 b.2) s s.tail).sum
    ∧ (s.length ≤ 1 → calculate_global_score s = 0) := by
  have hmain : calculate_global_score s
      = (List.zipWith (fun a b => calculate_local_satisfaction a.2 b.2) s s.tail).sum := by
    simp only [calculate_global_score]
    rw [foldl_add_map_sum, range_map_adjacent, Nat.zero_add]
  refine ⟨hmain, fun hlen => ?_⟩
  match s, hlen with
  | [], _ => rfl
  | [_], _ => rfl

/-- Witness for the length-≤-1 clause of `calculate_global_score_spec` at the
singleton sequence `[([0], {0})]`. -/
theorem calculate_global_score_spec_witness :
    calculate_global_score [(([0], {0}) : Frameglass Nat)] = 0 :=
  (calculate_global_score_spec [(([0], {0}) : Frameglass Nat)]).2 (by decide)

/-! ### Empty-input behaviour of the optimizers -/

/-- C3 counterexample: the Sequence Optimizer of `10_computable_moments.py`
does not return an empty sequence on the empty input; its leading
`frameglasses.pop(0)` fails (an `IndexError`, modelled as `none`). -/
theorem optimize_sequence_nil_raises :
    optimize_sequence ([] : List (Frameglass Nat)) = none := rfl

/-- C3 amended: on an empty frameglass list both greedy optimizers error out
at `pop(0)` (modelled as `none`) rather than returning an empty sequence,
while the global score of an empty sequence is 0.  `main.py` avoids the error
only by exiting before the optimizer runs when the builder output is empty. -/
theorem optimizer_empty_input_behavior :
    optimize_sequence ([] : List (Frameglass Nat)) = none
      ∧ optimize_chunk ([] : List (Frameglass Nat)) = none
      ∧ calculate_global_score ([] : List (Frameglass Nat)) = 0 :=
  ⟨rfl, rfl, rfl⟩

/-- C2 counterexample: on the empty list the Sequence Optimizer of `main.py`
fails at `remaining.pop(0)` (modelled as `none`) instead of returning a
permutation of its input. -/
theorem optimize_chunk_nil_eq_none :
    optimize_chunk ([] : List (Frameglass Nat)) = none := rfl

/-! ### End-to-end example -/

/-- C9: on three landscapes with tag sets `{a,b}`, `{b,c}`, `{d}` (tags
`a,b,c,d` encoded as `0,1,2,3`), the builder emits three singleton
frameglasses in input order, the greedy optimizer seeded with frameglass 0
returns the order `[0, 1, 2]`, and the global score of that order is 1. -/
theorem end_to_end_landscapes_example :
    create_frameglasses [(PKind.L, ({0, 1} : Finset Nat)), (PKind.L, {1, 2}), (PKind.L, {3})]
      = [([0], {0, 1}), ([1], {1, 2}), ([2], {3})]
    ∧ optimize_chunk
        (create_frameglasses
          [(PKind.L, ({0, 1} : Finset Nat)), (PKind.L, {1, 2}), (PKind.L, {3})])
      = some [([0], {0, 1}), ([1], {1, 2}), ([2], {3})]
    ∧ calculate_global_score [(([0], {0, 1}) : Frameglass Nat), ([1], {1, 2}), ([2], {3})]
      = 1 := by
  decide

/-! ### Greedy selection -/

/-- If the running best index is below the scan position, `bestScan` returns
some index below the end of the scan. -/
theorem bestScan_some_of_some (current : Finset α) :
    ∀ (l : List (Frameglass α)) (i : Nat) (s : Int) (j0 : Nat), j0 < i →
      ∃ j, bestScan current l i s (some j0) = some j ∧ j < i + l.length := by
  intro l
  induction l with
  | nil =>
    intro i s j0 h
    exact ⟨j0, rfl, by simpa using h⟩
  | cons fg rest ih =>
    intro i s j0 h
    simp only [bestScan]
    by_cases hlt : s < (calculate_local_satisfaction current fg.2 : Int)
    · rw [if_pos hlt]
      obtain ⟨j, hj, hjlt⟩ := ih (i + 1) _ i (Nat.lt_succ_self i)
      refine ⟨j, hj, ?_⟩
      simp only [List.length_cons]
      omega
    · rw [if_neg hlt]
      obtain ⟨j, hj, hjlt⟩ := ih (i + 1) s j0 (Nat.lt_succ_of_lt h)
      refine ⟨j, hj, ?_⟩
      simp only [List.length_cons]
      omega

/-- A scan that never sees a strictly better score keeps its current best. -/
theorem bestScan_keep (current : Finset α) :
    ∀ (l : List (Frameglass α)) (i : Nat) (s : Int) (b : Option Nat),
      (∀ fg ∈ l, (calculate_local_satisfaction current fg.2 : Int) ≤ s) →
      bestScan current l i s b = b := by
  intro l
  induction l with
  | nil => intro i s b _; rfl
  | cons fg rest ih =>
    intro i s b h
    have h1 : ¬ s < (calculate_local_satisfaction current fg.2 : Int) :=
      not_lt.mpr (h fg (List.mem_cons_self fg rest))
    simp only [bestScan, if_neg h1]
    exact ih (i + 1) s b (fun g hg => h g (List.mem_cons_of_mem fg hg))

/-- On a nonempty remaining pool the candidate scan of `optimize_chunk` always
selects a valid position: the initial score `-1` is strictly below every
(nonnegative) local score, so the first candidate is immediately adopted. -/
theorem bestScan_cons_some (current : Finset α) (fg : Frameglass α)
    (rest : List (Frameglass α)) :
    ∃ i, bestScan current (fg :: rest) 0 (-1) none = some i ∧ i < (fg :: rest).length := by
  have h0 : (-1 : Int) < (calculate_local_satisfaction current fg.2 : Int) := by
    have := Int.natCast_nonneg (calculate_local_satisfaction current fg.2)
    omega
  simp only [bestScan, if_pos h0]
  obtain ⟨j, hj, hjlt⟩ := bestScan_some_of_some current rest 1 _ 0 Nat.one_pos
  refine ⟨j, hj, ?_⟩
  simp only [List.length_cons]
  omega

/-- C7: with a nonempty remaining pool the candidate scan of the greedy
sequencing loop always selects some valid position — the loop never stalls and
the selection-dependent removal is in bounds — and when no candidate scores
strictly better than the first remaining one, the first remaining one
(position 0) is taken. -/
theorem greedy_selection_total (current : Finset α) (fg : Frameglass α)
    (rest : List (Frameglass α)) :
    (∃ i, bestScan current (fg :: rest) 0 (-1) none = some i ∧ i < (fg :: rest).length)
    ∧ ((∀ b ∈ fg :: rest,
          calculate_local_satisfaction current b.2 ≤ calculate_local_satisfaction current fg.2) →
        bestScan current (fg :: rest) 0 (-1) none = some 0) := by
  refine ⟨bestScan_cons_some current fg rest, fun h => ?_⟩
  have h0 : (-1 : Int) < (calculate_local_satisfaction current fg.2 : Int) := by
    have := Int.natCast_nonneg (calculate_local_satisfaction current fg.2)
    omega
  simp only [bestScan, if_pos h0]
  exact bestScan_keep current rest 1 _ (some 0)
    (fun g hg => by exact_mod_cast h g (List.mem_cons_of_mem fg hg))

/-- Witness for `greedy_selection_total`: on a concrete two-element pool where
both candidates score 0, position 0 is selected. -/
theorem greedy_selection_total_witness :
    bestScan ({0} : Finset Nat) [(([0], {1}) : Frameglass Nat), ([1], {2})] 0 (-1) none
      = some 0 :=
  (greedy_selection_total ({0} : Finset Nat) (([0], {1}) : Frameglass Nat) [([1], {2})]).2
    (by decide)

/-! ### The optimizer permutes its input -/

/-- Removing the element at a valid position and re-consing it yields a
permutation of the original list. -/
theorem getD_cons_eraseIdx_perm :
    ∀ (l : List (Frameglass α)) (i : Nat), i < l.length →
      ((l.getD i ([], ∅)) :: l.eraseIdx i).Perm l := by
  intro l
  induction l with
  | nil => intro i h; simp at h
  | cons a t ih =>
    intro i h
    cases i with
    | zero =>
      simp only [List.getD_cons_zero, List.eraseIdx_cons_zero]
      exact List.Perm.refl _
    | succ i =>
      simp only [List.getD_cons_succ, List.eraseIdx_cons_succ]
      have h' : i < t.length := by
        simp only [List.length_cons] at h
        omega
      exact List.Perm.trans (List.Perm.swap a (t.getD i ([], ∅)) (t.eraseIdx i))
        (List.Perm.cons a (ih i h'))

/-- The greedy loop of `optimize_chunk`, run with fuel equal to the remaining
length, emits a permutation of the remaining pool. -/
theorem greedyGo_perm :
    ∀ (fuel : Nat) (last : Frameglass α) (remaining : List (Frameglass α)),
      remaining.length = fuel → (greedyGo fuel last remaining).Perm remaining := by
  intro fuel
  induction fuel with
  | zero =>
    intro last remaining h
    rw [List.length_eq_zero] at h
    subst h
    exact List.Perm.refl _
  | succ n ih =>
    intro last remaining h
    match remaining, h with
    | x :: rest, h =>
      obtain ⟨i, hi, hilt⟩ := bestScan_cons_some last.2 x rest
      have hlen : ((x :: rest).eraseIdx i).length = n := by
        rw [List.length_eraseIdx, if_pos hilt]
        simp only [List.length_cons] at h ⊢
        omega
      refine List.Perm.trans ?_ (getD_cons_eraseIdx_perm (x :: rest) i hilt)
      simp only [greedyGo, hi]
      exact List.Perm.cons _ (ih _ _ hlen)

/-- C2 amended: for every nonempty list of frameglasses, `optimize_chunk`
returns a sequence that is a permutation of its input — the same multiset of
frameglasses with member lists and combined tag sets unchanged, none created,
destroyed, or duplicated.  (On the empty list it instead errors at `pop(0)`.) -/
theorem optimize_chunk_perm (first : Frameglass α) (rest : List (Frameglass α)) :
    ∃ out, optimize_chunk (first :: rest) = some out ∧ out.Perm (first :: rest) :=
  ⟨first :: greedyGo rest.length first rest, rfl,
    List.Perm.cons first (greedyGo_perm rest.length first rest rfl)⟩

/-! ### The builder partitions the input indices -/

theorem frameIndices_append (l1 l2 : List (Frameglass α)) :
    frameIndices (l1 ++ l2) = frameIndices l1 ++ frameIndices l2 := by
  induction l1 with
  | nil => rfl
  | cons fg rest ih => simp [frameIndices, ih]

/-- The member indices of the singleton landscape frameglasses are the
landscape positions themselves. -/
theorem frameIndices_singletons (l : List (Nat × Painting α)) :
    frameIndices (l.map (fun ip => ([ip.1], ip.2.2))) = l.map Prod.fst := by
  induction l with
  | nil => rfl
  | cons x rest ih => simp [frameIndices, ih]

/-- If the inner portrait scan reports a partner, it is either the incoming
best or an unused position from the scanned range. -/
theorem innerScan_some (portraits : List (Nat × Finset α)) (ti : Finset α) :
    ∀ (js : List Nat) (used : Finset Nat) (best : Option Nat) (bt : Finset α) (j : Nat),
      (innerScan portraits ti js used best bt).1 = some j →
      best = some j ∨ (j ∈ js ∧ j ∉ used) := by
  intro js
  induction js with
  | nil => intro used best bt j h; exact Or.inl h
  | cons j' js ih =>
    intro used best bt j h
    simp only [innerScan] at h
    by_cases hj' : j' ∈ used
    · rw [if_pos hj'] at h
      rcases ih used best bt j h with h1 | ⟨h2, h3⟩
      · exact Or.inl h1
      · exact Or.inr ⟨List.mem_cons_of_mem _ h2, h3⟩
    · rw [if_neg hj'] at h
      by_cases hc : bt.card < (ti ∪ (portraits.getD j' (0, ∅)).2).card
      · rw [if_pos hc] at h
        rcases ih used (some j') _ j h with h1 | ⟨h2, h3⟩
        · have hjj : j' = j := Option.some.inj h1
          subst hjj
          exact Or.inr ⟨List.mem_cons_self _ _, hj'⟩
        · exact Or.inr ⟨List.mem_cons_of_mem _ h2, h3⟩
      · rw [if_neg hc] at h
        rcases ih used best bt j h with h1 | ⟨h2, h3⟩
        · exact Or.inl h1
        · exact Or.inr ⟨List.mem_cons_of_mem _ h2, h3⟩

/-- The pairing loop of `create_frameglasses` emits, over the whole remaining
index range, exactly the original indices of the not-yet-used portraits. -/
theorem pairFold_indices_perm (P : List (Nat × Finset α)) :
    ∀ (k i : Nat) (used : Finset Nat), i + k = P.length →
      (frameIndices (pairFold P (List.range' i k) used)).Perm
        (((List.range' i k).filter (fun p => decide (p ∉ used))).map
          (fun p => (P.getD p (0, ∅)).1)) := by
  intro k
  induction k with
  | zero =>
    intro i used _
    simp [List.range'_zero, pairFold, frameIndices]
  | succ k ih =>
    intro i used hik
    rw [List.range'_succ]
    by_cases hi : i ∈ used
    · simp only [pairFold, if_pos hi, List.filter_cons, decide_eq_true_eq]
      rw [if_neg (by simp [hi])]
      exact ih (i + 1) used (by omega)
    · simp only [pairFold, if_neg hi]
      rcases hscan : innerScan P ((P.getD i (0, ∅)).2)
          (List.range' (i + 1) (P.length - (i + 1))) used none ∅ with ⟨b, bt⟩
      have hrange : P.length - (i + 1) = k := by omega
      cases b with
      | none =>
        simp only [frameIndices, List.filter_cons, decide_eq_true_eq, if_pos hi,
          List.map_cons, List.cons_append, List.nil_append]
        exact List.Perm.cons _ (ih (i + 1) used (by omega))
      | some j =>
        have hj : j ∈ List.range' (i + 1) (P.length - (i + 1)) ∧ j ∉ used := by
          rcases innerScan_some P _ _ used none ∅ j (by rw [hscan]) with h1 | h2
          · exact absurd h1 (by simp)
          · exact h2
        rw [hrange] at hj
        obtain ⟨hjmem, hjused⟩ := hj
        have hjlt : i + 1 ≤ j ∧ j < i + 1 + k := List.mem_range'_1.mp hjmem
        -- the filtered remaining positions, and j's membership in them
        set F := (List.range' (i + 1) k).filter (fun p => decide (p ∉ used)) with hF
        have hjF : j ∈ F := by
          rw [hF, List.mem_filter]
          exact ⟨hjmem, by simpa using hjused⟩
        have hFnd : F.Nodup :=
          List.Sublist.nodup (List.filter_sublist _) (List.nodup_range' _ _)
        -- the recursion's used-set filter equals erasing j from F
        have hfilter : (List.range' (i + 1) k).filter
            (fun p => decide (p ∉ insert j (insert i used))) = F.erase j := by
          rw [List.Nodup.erase_eq_filter hFnd, hF, List.filter_filter]
          refine List.filter_congr ?_
          intro x hx
          have hxlt : i + 1 ≤ x ∧ x < i + 1 + k := List.mem_range'_1.mp hx
          have hxi : x ≠ i := by omega
          simp only [Finset.mem_insert]
          by_cases hxj : x = j <;> by_cases hxu : x ∈ used <;> simp [hxj, hxu, hxi]
        simp only [frameIndices, List.filter_cons, decide_eq_true_eq, if_pos hi,
          List.map_cons, List.cons_append, List.nil_append]
        refine List.Perm.cons _ ?_
        have hrec := ih (i + 1) (insert j (insert i used)) (by omega)
        rw [hfilter] at hrec
        refine List.Perm.trans (List.Perm.cons _ hrec) ?_
        have hperm : (j :: F.erase j).Perm F := (List.perm_cons_erase hjF).symm
        exact (List.Perm.map (fun p => (P.getD p (0, ∅)).1) hperm)

/-- Positions mapped through `getD` recover the suffix of the list. -/
theorem range'_map_getD (P : List (Nat × Finset α)) :
    ∀ (k i : Nat), i + k = P.length →
      (List.range' i k).map (fun p => P.getD p (0, ∅)) = P.drop i := by
  intro k
  induction k with
  | zero =>
    intro i h
    rw [List.range'_zero]
    exact (List.drop_eq_nil_of_le (by omega)).symm
  | succ k ih =>
    intro i h
    have hi : i < P.length := by omega
    rw [List.range'_succ, List.map_cons, ih (i + 1) (by omega),
      List.drop_eq_getElem_cons hi, List.getD_eq_getElem P (0, ∅) hi]

/-- The portrait pool keeps one entry per `"P"` painting; its stored original
indices are exactly the portrait positions of the input. -/
theorem portraitsOf_map_fst (paintings : List (Painting α)) :
    (portraitsOf paintings).map Prod.fst
      = (paintings.enum.filter (fun ip => ip.2.1 == PKind.P)).map Prod.fst := by
  simp [portraitsOf, List.map_map, Function.comp]

/-- The landscape/portrait split covers the enumerated input exactly once. -/
theorem filter_L_P_perm (paintings : List (Painting α)) :
    ((paintings.enum.filter (fun ip => ip.2.1 == PKind.L))
        ++ (paintings.enum.filter (fun ip => ip.2.1 == PKind.P))).Perm paintings.enum := by
  have hcongr : paintings.enum.filter (fun ip => !(ip.2.1 == PKind.L))
      = paintings.enum.filter (fun ip => ip.2.1 == PKind.P) := by
    refine List.filter_congr ?_
    intro x _
    cases hx : x.2.1 <;> simp [hx]
  rw [← hcongr]
  exact List.filter_append_perm _ _

/-- C1: the member-index lists of the builder's frameglasses, concatenated,
are a permutation of `0, …, n-1`: every input painting index appears in
exactly one frameglass, none dropped or duplicated. -/
theorem create_frameglasses_partition (paintings : List (Painting α)) :
    (frameIndices (create_frameglasses paintings)).Perm (List.range paintings.length) := by
  have hland : frameIndices (landscapeFrames paintings)
      = (paintings.enum.filter (fun ip => ip.2.1 == PKind.L)).map Prod.fst := by
    simp only [landscapeFrames]
    exact frameIndices_singletons _
  have hrange : List.range paintings.length = paintings.enum.map Prod.fst :=
    (List.enum_map_fst paintings).symm
  by_cases hp : portraitsOf paintings = []
  · have hPfilter : paintings.enum.filter (fun ip => ip.2.1 == PKind.P) = [] := by
      have := portraitsOf_map_fst paintings
      rw [hp] at this
      have hmap : (paintings.enum.filter (fun ip => ip.2.1 == PKind.P)).map Prod.fst = [] :=
        this.symm
      exact List.map_eq_nil_iff.mp hmap
    simp only [create_frameglasses, if_pos hp]
    rw [hland, hrange]
    have := (filter_L_P_perm paintings).map Prod.fst
    rw [hPfilter, List.map_append] at this
    simpa using this
  · simp only [create_frameglasses, if_neg hp]
    rw [frameIndices_append, hland, hrange]
    have hpair : (frameIndices (pairFold (portraitsOf paintings)
        (List.range (portraitsOf paintings).length) ∅)).Perm
          ((portraitsOf paintings).map Prod.fst) := by
      have h0 := pairFold_indices_perm (portraitsOf paintings)
        (portraitsOf paintings).length 0 ∅ (by omega)
      rw [← List.range_eq_range'] at h0
      have hfT : (List.range (portraitsOf paintings).length).filter
          (fun p => decide (p ∉ (∅ : Finset Nat)))
          = List.range (portraitsOf paintings).length := by
        rw [List.filter_eq_self]
        intro a _
        simp
      rw [hfT] at h0
      have hmap : (List.range (portraitsOf paintings).length).map
          (fun p => ((portraitsOf paintings).getD p (0, ∅)).1)
          = (portraitsOf paintings).map Prod.fst := by
        have h1 := range'_map_getD (portraitsOf paintings) (portraitsOf paintings).length 0
          (by omega)
        rw [← List.range_eq_range'] at h1
        calc (List.range (portraitsOf paintings).length).map
              (fun p => ((portraitsOf paintings).getD p (0, ∅)).1)
            = ((List.range (portraitsOf paintings).length).map
                (fun p => (portraitsOf paintings).getD p (0, ∅))).map Prod.fst := by
              rw [List.map_map]; rfl
          _ = (portraitsOf paintings).map Prod.fst := by rw [h1, List.drop_zero]
      rw [hmap] at h0
      exact h0
    refine List.Perm.trans (List.Perm.append_left _ hpair) ?_
    rw [portraitsOf_map_fst, ← List.map_append]
    exact (filter_L_P_perm paintings).map Prod.fst

/-! ### Frameglass shapes and the leftover singleton -/

/-- Once the inner portrait scan holds a candidate it never reports `None`. -/
theorem innerScan_ne_none (portraits : List (Nat × Finset α)) (ti : Finset α) :
    ∀ (js : List Nat) (used : Finset Nat) (bt : Finset α) (j : Nat),
      (innerScan portraits ti js used (some j) bt).1 ≠ none := by
  intro js
  induction js with
  | nil => intro used bt j h; exact Option.noConfusion h
  | cons j' js ih =>
    intro used bt j
    simp only [innerScan]
    by_cases hj' : j' ∈ used
    · rw [if_pos hj']
      exact ih used bt j
    · rw [if_neg hj']
      by_cases hc : bt.card < (ti ∪ (portraits.getD j' (0, ∅)).2).card
      · rw [if_pos hc]
        exact ih used _ j'
      · rw [if_neg hc]
        exact ih used bt j

/-- When the scanned portrait's tag set is nonempty, a failed inner scan means
every scanned position was already used: a combined tag set with a nonempty
`ti` always beats the initially empty `best_tags`. -/
theorem innerScan_none_all_used (portraits : List (Nat × Finset α)) (ti : Finset α)
    (hti : ti ≠ ∅) :
    ∀ (js : List Nat) (used : Finset Nat),
      (innerScan portraits ti js used none ∅).1 = none → ∀ j ∈ js, j ∈ used := by
  intro js
  induction js with
  | nil => intro used _ j hj; exact absurd hj (List.not_mem_nil j)
  | cons j' js ih =>
    intro used h j hj
    simp only [innerScan] at h
    by_cases hj' : j' ∈ used
    · rw [if_pos hj'] at h
      rcases List.mem_cons.mp hj with rfl | hjs
      · exact hj'
      · exact ih used h j hjs
    · rw [if_neg hj'] at h
      by_cases hc : (∅ : Finset α).card < (ti ∪ (portraits.getD j' (0, ∅)).2).card
      · rw [if_pos hc] at h
        exact absurd h (innerScan_ne_none portraits ti js used _ j')
      · exfalso
        apply hti
        have hc0 : (ti ∪ (portraits.getD j' (0, ∅)).2).card = 0 := by
          simpa using hc
        exact (Finset.union_eq_empty.mp (Finset.card_eq_zero.mp hc0)).1

/-- The pairing loop emits nothing over positions that are all used. -/
theorem pairFold_skip_all (P : List (Nat × Finset α)) :
    ∀ (js : List Nat) (used : Finset Nat), (∀ j ∈ js, j ∈ used) →
      pairFold P js used = [] := by
  intro js
  induction js with
  | nil => intro used _; rfl
  | cons j' js ih =>
    intro used h
    simp only [pairFold, if_pos (h j' (List.mem_cons_self j' js))]
    exact ih used (fun j hj => h j (List.mem_cons_of_mem j' hj))

/-- When every portrait's tag set is nonempty, the pairing loop emits exactly
`u % 2` singletons, where `u` is the number of not-yet-used positions in the
remaining range. -/
theorem pairFold_singleton_count (P : List (Nat × Finset α))
    (hP : ∀ pr ∈ P, pr.2 ≠ ∅) :
    ∀ (k i : Nat) (used : Finset Nat), i + k = P.length →
      ((pairFold P (List.range' i k) used).filter (fun fg => fg.1.length == 1)).length
        = ((List.range' i k).filter (fun p => decide (p ∉ used))).length % 2 := by
  intro k
  induction k with
  | zero =>
    intro i used _
    simp [List.range'_zero, pairFold]
  | succ k ih =>
    intro i used hik
    rw [List.range'_succ]
    by_cases hi : i ∈ used
    · simp only [pairFold, if_pos hi, List.filter_cons]
      rw [if_neg (by simp [hi])]
      exact ih (i + 1) used (by omega)
    · simp only [pairFold, if_neg hi]
      rcases hscan : innerScan P ((P.getD i (0, ∅)).2)
          (List.range' (i + 1) (P.length - (i + 1))) used none ∅ with ⟨b, bt⟩
      have hrange : P.length - (i + 1) = k := by omega
      cases b with
      | some j =>
        have hj : j ∈ List.range' (i + 1) (P.length - (i + 1)) ∧ j ∉ used := by
          rcases innerScan_some P _ _ used none ∅ j (by rw [hscan]) with h1 | h2
          · exact absurd h1 (by simp)
          · exact h2
        rw [hrange] at hj
        obtain ⟨hjmem, hjused⟩ := hj
        set F := (List.range' (i + 1) k).filter (fun p => decide (p ∉ used)) with hF
        have hjF : j ∈ F := by
          rw [hF, List.mem_filter]
          exact ⟨hjmem, by simpa using hjused⟩
        have hFnd : F.Nodup :=
          List.Sublist.nodup (List.filter_sublist _) (List.nodup_range' _ _)
        have hfilter : (List.range' (i + 1) k).filter
            (fun p => decide (p ∉ insert j (insert i used))) = F.erase j := by
          rw [List.Nodup.erase_eq_filter hFnd, hF, List.filter_filter]
          refine List.filter_congr ?_
          intro x hx
          have hxlt : i + 1 ≤ x ∧ x < i + 1 + k := List.mem_range'_1.mp hx
          have hxi : x ≠ i := by omega
          simp only [Finset.mem_insert]
          by_cases hxj : x = j <;> by_cases hxu : x ∈ used <;> simp [hxj, hxu, hxi]
        have hrec := ih (i + 1) (insert j (insert i used)) (by omega)
        rw [hfilter] at hrec
        have hFlen : (F.erase j).length = F.length - 1 := List.length_erase_of_mem hjF
        have hFpos : 1 ≤ F.length := by
          have := List.length_pos.mpr (List.ne_nil_of_mem hjF)
          omega
        simp only [List.filter_cons]
        rw [if_neg (by simp), if_pos (by simpa using hi)]
        rw [hrec, hFlen]
        simp only [List.length_cons]
        rw [← hF]
        omega
      | none =>
        have hti : (P.getD i (0, ∅)).2 ≠ ∅ := by
          have hiP : P.getD i (0, ∅) ∈ P := by
            rw [List.getD_eq_getElem P (0, ∅) (by omega)]
            exact List.getElem_mem _
          exact hP _ hiP
        have hall : ∀ j ∈ List.range' (i + 1) (P.length - (i + 1)), j ∈ used :=
          innerScan_none_all_used P _ hti _ used (by rw [hscan])
        rw [hrange] at hall
        have hnil : pairFold P (List.range' (i + 1) k) used = [] :=
          pairFold_skip_all P _ used hall
        have hfnil : (List.range' (i + 1) k).filter (fun p => decide (p ∉ used)) = [] := by
          rw [List.filter_eq_nil_iff]
          intro a ha
          simpa using hall a ha
        simp only [List.filter_cons]
        rw [if_pos (by simp), if_pos (by simpa using hi)]
        rw [hnil, hfnil]
        rfl

/-- The stored original indices of the portrait pool have no duplicates. -/
theorem portraitsOf_map_fst_nodup (paintings : List (Painting α)) :
    ((portraitsOf paintings).map Prod.fst).Nodup := by
  rw [portraitsOf_map_fst]
  have hsub : ((paintings.enum.filter (fun ip => ip.2.1 == PKind.P)).map Prod.fst).Sublist
      (paintings.enum.map Prod.fst) := List.Sublist.map _ (List.filter_sublist _)
  rw [List.enum_map_fst] at hsub
  exact List.Sublist.nodup hsub (List.nodup_range _)

/-- Every frameglass emitted by the pairing loop is a singleton or a pair of
two distinct original portrait indices. -/
theorem pairFold_shape (P : List (Nat × Finset α)) (hnd : (P.map Prod.fst).Nodup) :
    ∀ (k i : Nat) (used : Finset Nat), i + k = P.length →
      ∀ fg ∈ pairFold P (List.range' i k) used,
        (∃ a, fg.1 = [a])
        ∨ (∃ a b, a ≠ b ∧ fg.1 = [a, b] ∧ a ∈ P.map Prod.fst ∧ b ∈ P.map Prod.fst) := by
  intro k
  induction k with
  | zero =>
    intro i used _ fg hfg
    rw [List.range'_zero] at hfg
    exact absurd hfg (List.not_mem_nil fg)
  | succ k ih =>
    intro i used hik fg hfg
    rw [List.range'_succ] at hfg
    by_cases hi : i ∈ used
    · rw [show pairFold P (i :: List.range' (i + 1) k) used
          = pairFold P (List.range' (i + 1) k) used by simp [pairFold, hi]] at hfg
      exact ih (i + 1) used (by omega) fg hfg
    · simp only [pairFold, if_neg hi] at hfg
      rcases hscan : innerScan P ((P.getD i (0, ∅)).2)
          (List.range' (i + 1) (P.length - (i + 1))) used none ∅ with ⟨b, bt⟩
      rw [hscan] at hfg
      have hrange : P.length - (i + 1) = k := by omega
      cases b with
      | some j =>
        have hj : j ∈ List.range' (i + 1) (P.length - (i + 1)) ∧ j ∉ used := by
          rcases innerScan_some P _ _ used none ∅ j (by rw [hscan]) with h1 | h2
          · exact absurd h1 (by simp)
          · exact h2
        rw [hrange] at hj
        have hjlt : i + 1 ≤ j ∧ j < i + 1 + k := List.mem_range'_1.mp hj.1
        rcases List.mem_cons.mp hfg with rfl | hfg'
        · right
          have hiP : i < P.length := by omega
          have hjP : j < P.length := by omega
          have hiM : i < (P.map Prod.fst).length := by
            rw [List.length_map]; omega
          have hjM : j < (P.map Prod.fst).length := by
            rw [List.length_map]; omega
          refine ⟨(P.getD i (0, ∅)).1, (P.getD j (0, ∅)).1, ?_, rfl, ?_, ?_⟩
          · rw [List.getD_eq_getElem P (0, ∅) hiP, List.getD_eq_getElem P (0, ∅) hjP]
            have hgi : P[i].1 = (P.map Prod.fst)[i] := by
              rw [List.getElem_map]
            have hgj : P[j].1 = (P.map Prod.fst)[j] := by
              rw [List.getElem_map]
            rw [hgi, hgj]
            intro hEq
            have := (List.Nodup.getElem_inj_iff hnd).mp hEq
            omega
          · rw [List.getD_eq_getElem P (0, ∅) hiP]
            have : P[i].1 = (P.map Prod.fst)[i] := by rw [List.getElem_map]
            rw [this]
            exact List.getElem_mem _
          · rw [List.getD_eq_getElem P (0, ∅) hjP]
            have : P[j].1 = (P.map Prod.fst)[j] := by rw [List.getElem_map]
            rw [this]
            exact List.getElem_mem _
        · exact ih (i + 1) (insert j (insert i used)) (by omega) fg hfg'
      | none =>
        rcases List.mem_cons.mp hfg with rfl | hfg'
        · exact Or.inl ⟨(P.getD i (0, ∅)).1, rfl⟩
        · exact ih (i + 1) used (by omega) fg hfg'

/-- C5 amended: provided every portrait's tag set is nonempty, each frameglass
emitted by the builder is a singleton or a pair of two distinct portrait
indices, and the number of singleton frameglasses is the number of landscapes
plus `portraitCount % 2` — so a leftover portrait singleton exists exactly
when the portrait count is odd, and then it is unique.  (Without the
nonempty-tags proviso the parity clause fails, see
`create_frameglasses_even_singletons`.) -/
theorem create_frameglasses_shape_and_singleton_count (paintings : List (Painting α))
    (h : ∀ pr ∈ portraitsOf paintings, pr.2 ≠ ∅) :
    (∀ fg ∈ create_frameglasses paintings,
        (∃ a, fg.1 = [a])
        ∨ (∃ a b, a ≠ b ∧ fg.1 = [a, b]
            ∧ a ∈ (portraitsOf paintings).map Prod.fst
            ∧ b ∈ (portraitsOf paintings).map Prod.fst))
    ∧ ((create_frameglasses paintings).filter (fun fg => fg.1.length == 1)).length
        = (landscapeFrames paintings).length + (portraitsOf paintings).length % 2 := by
  have hland1 : ∀ fg ∈ landscapeFrames paintings, ∃ a, fg.1 = [a] := by
    intro fg hfg
    simp only [landscapeFrames, List.mem_map] at hfg
    obtain ⟨ip, _, rfl⟩ := hfg
    exact ⟨ip.1, rfl⟩
  have hlandfilter : (landscapeFrames paintings).filter (fun fg => fg.1.length == 1)
      = landscapeFrames paintings := by
    rw [List.filter_eq_self]
    intro fg hfg
    obtain ⟨a, ha⟩ := hland1 fg hfg
    simp [ha]
  have hfull : (List.range (portraitsOf paintings).length).filter
      (fun p => decide (p ∉ (∅ : Finset Nat))) = List.range (portraitsOf paintings).length := by
    rw [List.filter_eq_self]
    intro a _
    simp
  constructor
  · intro fg hfg
    simp only [create_frameglasses] at hfg
    by_cases hp : portraitsOf paintings = []
    · rw [if_pos hp] at hfg
      exact Or.inl (hland1 fg hfg)
    · rw [if_neg hp] at hfg
      rcases List.mem_append.mp hfg with hfg' | hfg'
      · exact Or.inl (hland1 fg hfg')
      · rw [List.range_eq_range'] at hfg'
        exact pairFold_shape (portraitsOf paintings) (portraitsOf_map_fst_nodup paintings)
          (portraitsOf paintings).length 0 ∅ (by omega) fg hfg'
  · simp only [create_frameglasses]
    by_cases hp : portraitsOf paintings = []
    · rw [if_pos hp, hlandfilter, hp]
      rfl
    · rw [if_neg hp, List.filter_append, List.length_append, hlandfilter]
      congr 1
      have hcount := pairFold_singleton_count (portraitsOf paintings) h
        (portraitsOf paintings).length 0 ∅ (by omega)
      rw [← List.range_eq_range', hfull, List.length_range] at hcount
      exact hcount

/-- Witness for `create_frameglasses_shape_and_singleton_count`: three
portraits with nonempty tag sets `{0}`, `{1}`, `{2}` yield one pair and
exactly one leftover singleton. -/
theorem create_frameglasses_shape_and_singleton_count_witness :
    ((create_frameglasses
        [(PKind.P, ({0} : Finset Nat)), (PKind.P, {1}), (PKind.P, {2})]).filter
          (fun fg => fg.1.length == 1)).length
      = (landscapeFrames
          [(PKind.P, ({0} : Finset Nat)), (PKind.P, {1}), (PKind.P, {2})]).length
        + (portraitsOf
            [(PKind.P, ({0} : Finset Nat)), (PKind.P, {1}), (PKind.P, {2})]).length % 2 :=
  (create_frameglasses_shape_and_singleton_count
    [(PKind.P, ({0} : Finset Nat)), (PKind.P, {1}), (PKind.P, {2})] (by decide)).2

/-- C5 counterexample: two portraits (an even count) whose tag sets are both
empty are emitted as two portrait singletons — `len(combined_tags) >
len(best_tags)` never beats the initially empty `best_tags`, so `best_pair`
stays `None` for both — falsifying "a singleton portrait frameglass is
emitted only when the total number of portraits is odd". -/
theorem create_frameglasses_even_singletons :
    create_frameglasses [(PKind.P, (∅ : Finset Nat)), (PKind.P, ∅)]
      = [([0], ∅), ([1], ∅)] := by
  decide

end KWC
